import Mathlib

/-!
Verification development for the subnet-scraper repository.

The Python source (src/subnet-scraper.py) is shallowly embedded below:

* `parseOctet`, `ipIntFromString`, `makeNetmask`, `pyIPv4Network` model the
  CPython `ipaddress.IPv4Network(s)` constructor (strict mode, the default
  used at src/subnet-scraper.py:129/147), including the dotted
  netmask/hostmask fallback for the part after the slash.
* `hostsList` models `IPv4Network.hosts()` including the /31 and /32
  special cases installed by `IPv4Network.__init__`.
* `octetStr`/`ipToStr` model `str(IPv4Address)` (dotted decimal).
* `ping_ip_windows` / `ping_ip_linux` model the two probe variants; the
  outcome of `subprocess.run` is made explicit as a `SubprocessOutcome`
  value (either the process ran and produced a return code and stdout, or
  the call raised).  The Python functions catch every exception and return
  a bool on all paths, which the embedding renders as totality.
* `ping_subnet_with_threadpool` models the coordinator: the source submits
  one future per address, keeps `(future, ip)` pairs, and assembles the
  result dict by iterating that submission-ordered pair list, so each
  outcome is attributed to its own address no matter in which order the
  futures actually complete; the embedding therefore takes an arbitrary
  per-address outcome assignment `probe : String → Except Unit Bool`
  (`Except.error` standing for a `future.result()` call that raises).
* `display_progress` models the progress printer; `int(total*0.25)`,
  `int(total*0.5)`, `int(total*0.75)` are embedded as `total/4`, `total/2`,
  `3*total/4` (exact: 0.25, 0.5, 0.75 are dyadic, products with any list
  length are exactly representable doubles and `int` truncates).  Only the
  emission decision and message kind are modelled; the host-range text in
  the non-final message is display-only (its index arithmetic is clamped
  with `min(..., len-1)` and cannot fail for a nonempty address list).
* `output_filename`, `outputRecord`, `output` model the CSV writer, and
  `runAll`/`mainRun` model the per-subnet loop of `main` that merges every
  scan into one global dict before writing.
-/

namespace SubnetScraper

/-- ASCII decimal digit test: models Python `c.isascii() and c.isdigit()`
on a single character. -/
def isDig (c : Char) : Bool :=
  '0' ≤ c && c ≤ '9'

/-- Numeric value of a list of decimal digit characters, models `int(s, 10)`
for an all-digit string. -/
def digitsVal (l : List Char) : Nat :=
  l.foldl (fun acc c => 10 * acc + (c.toNat - 48)) 0

/-- `splitOnChar sep l` models Python `s.split(sep)` for a one-character
separator: empty parts are kept and the empty string yields `[[]]`. -/
def splitOnChar (sep : Char) : List Char → List (List Char)
  | [] => [[]]
  | c :: cs =>
    match splitOnChar sep cs with
    | [] => if c = sep then [[], []] else [[c]]
    | p :: ps => if c = sep then [] :: p :: ps else (c :: p) :: ps

/-- Inverse of `splitOnChar`: joins parts with the separator. -/
def joinWithChar (sep : Char) : List (List Char) → List Char
  | [] => []
  | [p] => p
  | p :: ps => p ++ sep :: joinWithChar sep ps

/-- Decimal digit character for `d < 10`. -/
def digitChar10 (d : Nat) : Char :=
  Char.ofNat (48 + d)

/-- Decimal rendering of one byte value (`str(b)` for `0 ≤ b ≤ 255`). -/
def octetStr (m : Nat) : List Char :=
  if m ≥ 100 then [digitChar10 (m / 100), digitChar10 (m / 10 % 10), digitChar10 (m % 10)]
  else if m ≥ 10 then [digitChar10 (m / 10), digitChar10 (m % 10)]
  else [digitChar10 m]

/-- Dotted-decimal rendering of an IPv4 address value, models
`str(IPv4Address(n))` = `'.'.join(map(str, n.to_bytes(4, 'big')))`. -/
def ipToChars (n : Nat) : List Char :=
  octetStr (n / 16777216 % 256) ++ '.' ::
    (octetStr (n / 65536 % 256) ++ '.' ::
      (octetStr (n / 256 % 256) ++ '.' :: octetStr (n % 256)))

/-- String form of `ipToChars`. -/
def ipToStr (n : Nat) : String :=
  String.mk (ipToChars n)

/-- Models `IPv4Network._parse_octet` (CPython): the octet must be a
nonempty ASCII-digit string of at most 3 characters, without leading
zeros, with value at most 255. -/
def parseOctet (o : List Char) : Option Nat :=
  if o.isEmpty then none
  else if ¬ o.all isDig then none
  else if o.length > 3 then none
  else if o ≠ ['0'] ∧ o.head? = some '0' then none
  else if digitsVal o > 255 then none
  else some (digitsVal o)

/-- Models `IPv4Network._ip_int_from_string`: exactly four dot-separated
octets, combined big-endian. -/
def ipIntFromString (a : List Char) : Option Nat :=
  if a.isEmpty then none
  else
    match splitOnChar '.' a with
    | [o1, o2, o3, o4] =>
      match parseOctet o1, parseOctet o2, parseOctet o3, parseOctet o4 with
      | some b1, some b2, some b3, some b4 =>
        some (b1 * 16777216 + b2 * 65536 + b3 * 256 + b4)
      | _, _, _, _ => none
    | _ => none

/-- Models `_prefix_from_prefix_string`: the part after the slash read as a
decimal prefix length (must be nonempty ASCII digits, value ≤ 32; leading
zeros are accepted here, as in CPython). -/
def prefixFromPrefixString (m : List Char) : Option Nat :=
  if m.isEmpty then none
  else if ¬ m.all isDig then none
  else if digitsVal m ≤ 32 then some (digitsVal m) else none

/-- Number of trailing zero bits of `n`, with fuel; models
`_count_righthand_zero_bits` for values below `2 ^ fuel`. -/
def trailingZerosAux : Nat → Nat → Nat
  | 0, _ => 0
  | fuel + 1, n => if n % 2 = 1 then 0 else 1 + trailingZerosAux fuel (n / 2)

/-- Models `_count_righthand_zero_bits(number, 32)`. -/
def countRighthandZeroBits (number : Nat) : Nat :=
  if number = 0 then 32 else min 32 (trailingZerosAux 32 number)

/-- Models `_prefix_from_ip_int`: accept `n` only when it is of the shape
`1^p 0^(32-p)` and return `p`. -/
def prefixFromIpInt (n : Nat) : Option Nat :=
  if n >>> countRighthandZeroBits n = 2 ^ (32 - countRighthandZeroBits n) - 1
  then some (32 - countRighthandZeroBits n) else none

/-- Models `_prefix_from_ip_string`: parse the mask as a dotted quad and
accept it as a netmask, or after complementing as a hostmask. -/
def prefixFromIpString (m : List Char) : Option Nat :=
  match ipIntFromString m with
  | some ipInt =>
    match prefixFromIpInt ipInt with
    | some p => some p
    | none => prefixFromIpInt (ipInt ^^^ (4294967296 - 1))
  | none => none

/-- Models `IPv4Network._make_netmask` for a string argument: first try the
numeric prefix form, then the dotted netmask/hostmask form. -/
def makeNetmask (m : List Char) : Option Nat :=
  match prefixFromPrefixString m with
  | some p => some p
  | none => prefixFromIpString m

/-- Models `_ip_int_from_prefix(p)` = `ALL_ONES ^ (ALL_ONES >> p)`. -/
def netmaskInt (p : Nat) : Nat :=
  (4294967296 - 1) ^^^ ((4294967296 - 1) >>> p)

/-- Models the strict-mode CPython constructor `ipaddress.IPv4Network(s)`
as called at src/subnet-scraper.py:129 and :147.  Returns
`(network_address, prefixlen)` on success and `none` where the constructor
raises `ValueError`.  A bare address (no slash) gets prefix 32; more than
one slash is rejected; with strict=True the parse fails when the address
has host bits set below the netmask. -/
def pyIPv4Network (s : String) : Option (Nat × Nat) :=
  match splitOnChar '/' s.data with
  | [a] =>
    match ipIntFromString a with
    | some ip => some (ip, 32)
    | none => none
  | [a, m] =>
    match ipIntFromString a, makeNetmask m with
    | some ip, some p =>
      if ip &&& netmaskInt p = ip then some (ip, p) else none
    | _, _ => none
  | _ => none

/-- Models `IPv4Network.hosts()` for a network with network address `net`
and prefix length `p`: `__init__` overrides `hosts` with `__iter__` (all
addresses of the range) for /31 and with the single address for /32;
otherwise `hosts` is `range(network+1, broadcast)`. -/
def hostsList (net p : Nat) : List Nat :=
  let broadcast := net + (2 ^ (32 - p) - 1)
  if p = 32 then [net]
  else if p = 31 then List.range' net (broadcast + 1 - net)
  else List.range' (net + 1) (broadcast - (net + 1))

/-- Models the expansion in `parse_args`:
`[str(ip) for ip in ipaddress.IPv4Network(s).hosts()]`, `none` when the
constructor raises and `parse_args` exits with an error. -/
def expandSubnet (s : String) : Option (List String) :=
  (pyIPv4Network s).map fun np => (hostsList np.1 np.2).map ipToStr

/-- Substring test on character lists: models Python `needle in hay`. -/
def containsSub (needle : List Char) : List Char → Bool
  | [] => needle.isEmpty
  | c :: cs => needle.isPrefixOf (c :: cs) || containsSub needle cs

/-- Outcome of one `subprocess.run(cmd, ..., check=False)` call: either the
process ran and delivered a return code and captured stdout, or the call
itself raised (spawn failure, missing binary, ...). -/
inductive SubprocessOutcome where
  | completed (returncode : Int) (stdout : String)
  | raised
  deriving DecidableEq

/-- Models `ping_ip_windows(ip)` (src/subnet-scraper.py:37-70): the probe
environment `env` gives the subprocess outcome of the ping command for
`ip`; the function returns `True` only for return code 0 with
`"Reply from"` in stdout, and `False` on every other path, including a
raised exception (the `except Exception` branch). -/
def ping_ip_windows (env : String → SubprocessOutcome) (ip : String) : Bool :=
  match env ip with
  | .completed returncode stdout =>
    returncode = 0 && containsSub "Reply from".data stdout.data
  | .raised => false

/-- Models `ping_ip_linux(ip)` (src/subnet-scraper.py:72-105): `True`
exactly for return code 0, `False` otherwise and on a raised exception. -/
def ping_ip_linux (env : String → SubprocessOutcome) (ip : String) : Bool :=
  match env ip with
  | .completed returncode _ => returncode = 0
  | .raised => false

/-- Python dict over string keys with boolean values, kept as an
insertion-ordered association list with unique keys: `d[k] = v` overwrites
in place when the key exists and appends otherwise. -/
def dictInsert : List (String × Bool) → String → Bool → List (String × Bool)
  | [], k, v => [(k, v)]
  | (k', v') :: rest, k, v =>
    if k' = k then (k', v) :: rest else (k', v') :: dictInsert rest k v

/-- Dict lookup, `d[k]` / `d.get(k)`. -/
def dictLookup : List (String × Bool) → String → Option Bool
  | [], _ => none
  | (k', v') :: rest, k => if k' = k then some v' else dictLookup rest k

/-- `d.get(k, dflt)`. -/
def dictGetD (d : List (String × Bool)) (k : String) (dflt : Bool) : Bool :=
  (dictLookup d k).getD dflt

/-- Models `dict.update`: insert every pair of `new` in order. -/
def dictUpdate (d new : List (String × Bool)) : List (String × Bool) :=
  new.foldl (fun acc kv => dictInsert acc kv.1 kv.2) d

/-- A progress notification: either a percent-complete message or the
final message carrying the reachable-host tally. -/
inductive ProgressMsg where
  | percent (pct : Nat)
  | final (reachable : Nat)
  deriving DecidableEq

/-- Models `display_progress` (src/subnet-scraper.py:168-217), returning
the emitted notification, if any.  `progress_points`
`[1, int(total*0.25), int(total*0.5), int(total*0.75), total]` is embedded
with exact Nat division (see header note).  The final-form message is
printed when `reachable_count is not None and current == total`; the
host-range text of the other branch is display-only and omitted. -/
def display_progress (current total : Nat) (reachable_count : Option Nat) :
    Option ProgressMsg :=
  let progress_points := [1, total / 4, total / 2, 3 * total / 4, total]
  if current ∈ progress_points ∨ current = total then
    match reachable_count with
    | some r => if current = total then some (.final r)
                else some (.percent (100 * current / total))
    | none => some (.percent (100 * current / total))
  else none

/-- State of one subnet scan: the result dict, the reachable and completed
counters, and the log of emitted progress notifications, each tagged with
the completion count at which it was emitted. -/
structure ScanState where
  results : List (String × Bool)
  reachable : Nat
  completed : Nat
  log : List (Nat × ProgressMsg)
  deriving DecidableEq

/-- One iteration of the result-collection loop of
`ping_subnet_with_threadpool` (src/subnet-scraper.py:295-316) for the pair
`(future, ip)`: on a normal `future.result()` the outcome is recorded, the
counters advance and `display_progress` may emit; on a raised
`future.result()` the `except` branch records `False` and advances only
the completed counter. -/
def scanStep (total : Nat) (st : ScanState) : String × Except Unit Bool → ScanState
  | (ip, .ok b) =>
    let completed := st.completed + 1
    let reachable := if b then st.reachable + 1 else st.reachable
    let msg := display_progress completed total
      (if completed = total then some reachable else none)
    { results := dictInsert st.results ip b
      reachable := reachable
      completed := completed
      log := st.log ++ (match msg with | some m => [(completed, m)] | none => []) }
  | (ip, .error _) =>
    { results := dictInsert st.results ip false
      reachable := st.reachable
      completed := st.completed + 1
      log := st.log }

/-- The value `future.result()` resolves to at the coordinator boundary:
the probe's boolean, with a raised call collapsed to `False`. -/
def resolveProbe : Except Unit Bool → Bool
  | .ok b => b
  | .error _ => false

/-- Models `ping_subnet_with_threadpool` (src/subnet-scraper.py:264-318):
one future per address in submission order, outcomes attributed through
the stored `(future, ip)` pairs. -/
def ping_subnet_with_threadpool (subnet_ips : List String)
    (probe : String → Except Unit Bool) : ScanState :=
  (subnet_ips.map fun ip => (ip, probe ip)).foldl
    (scanStep subnet_ips.length) ⟨[], 0, 0, []⟩

/-- Models `str(b).lower()` for a Python bool. -/
def bool_str (b : Bool) : String :=
  if b then "true" else "false"

/-- Models the filename construction of `output`
(src/subnet-scraper.py:239-240): the current date, the fixed text, and the
subnet identifier with `/` replaced by `_`. -/
def output_filename (current_date subnet : String) : String :=
  current_date ++ "_ping results_" ++
    String.mk (subnet.data.map fun c => if c = '/' then '_' else c) ++ ".csv"

/-- Models the rows written for one subnet
(src/subnet-scraper.py:252-256): a header row, then one row per address of
the subnet in order, with `results.get(ip, False)` rendered lowercase. -/
def outputRecord (results : List (String × Bool)) (ips : List String) :
    List (List String) :=
  ["IP Address", "Reachable"] :: ips.map fun ip =>
    [ip, bool_str (dictGetD results ip false)]

/-- Models `output(results, subnet_map)` (src/subnet-scraper.py:219-262):
one record (filename and rows) per subnet of the map, each reading from
the single merged results dict. -/
def output (current_date : String) (results : List (String × Bool))
    (subnet_map : List (String × List String)) : List (String × List (List String)) :=
  subnet_map.map fun p => (output_filename current_date p.1, outputRecord results p.2)

/-- The subnet loop of `main` (src/subnet-scraper.py:344-357): scan each
subnet in order and merge its results into the global dict with
`results.update(subnet_results)`.  `env i` gives the probe outcomes of the
`i`-th subnet's scan (each scan issues its own probe invocations, so
outcomes are indexed per scan). -/
def runAllGo (env : Nat → String → Except Unit Bool) :
    Nat → List (String × Bool) → List (String × List String) → List (String × Bool)
  | _, acc, [] => acc
  | i, acc, (_, ips) :: rest =>
    runAllGo env (i + 1)
      (dictUpdate acc (ping_subnet_with_threadpool ips (env i)).results) rest

/-- The merged global results dict of one run of `main`. -/
def runAll (subnet_map : List (String × List String))
    (env : Nat → String → Except Unit Bool) : List (String × Bool) :=
  runAllGo env 0 [] subnet_map

/-- Models one full run of `main` (scan all subnets, then persist): the
list of per-subnet output records. -/
def mainRun (current_date : String) (subnet_map : List (String × List String))
    (env : Nat → String → Except Unit Bool) : List (String × List (List String)) :=
  output current_date (runAll subnet_map env) subnet_map

/-- Written from the spec's words (section 4.1 / claim C7), not from the
source: a well-formed octet of a syntactically valid IPv4 CIDR — a
nonempty decimal numeral without leading zeros whose value is at most
255. -/
def specOctet (o : List Char) : Option Nat :=
  if ¬ o.isEmpty ∧ o.all isDig ∧ (o = ['0'] ∨ o.head? ≠ some '0') ∧ digitsVal o ≤ 255
  then some (digitsVal o) else none

/-- Written from the spec's words (claim C7): a syntactically valid IPv4
CIDR is four well-formed dot-separated octets, a single slash, and a
decimal prefix length in [0, 32]; anything else (malformed octets, prefix
out of range, stray characters) is invalid.  Returns the address value and
prefix when valid. -/
def specParseCIDR (s : String) : Option (Nat × Nat) :=
  match splitOnChar '/' s.data with
  | [a, m] =>
    match splitOnChar '.' a with
    | [o1, o2, o3, o4] =>
      match specOctet o1, specOctet o2, specOctet o3, specOctet o4 with
      | some b1, some b2, some b3, some b4 =>
        if ¬ m.isEmpty ∧ m.all isDig ∧ digitsVal m ≤ 32 then
          some (b1 * 16777216 + b2 * 65536 + b3 * 256 + b4, digitsVal m)
        else none
      | _, _, _, _ => none
    | _ => none
  | _ => none

/-- The spec-side validity predicate of claim C7. -/
def specValidCIDR (s : String) : Bool :=
  (specParseCIDR s).isSome

/-- The address of a spec-valid CIDR has no host bits set below the
prefix (the strictness condition of the Python constructor), expressed
arithmetically on the spec-side parse. -/
def specHostBitsClear (s : String) : Bool :=
  match specParseCIDR s with
  | some (ip, p) => ip % 2 ^ (32 - p) = 0
  | none => false

/-- The qualifier of the amended claim C7: exactly one slash, and the part
after it is a nonempty decimal numeral (the CIDR prefix form, as opposed
to the dotted netmask/hostmask and bare-address forms the Python
constructor also accepts). -/
def numericPrefixForm (s : String) : Bool :=
  match splitOnChar '/' s.data with
  | [_, m] => ¬ m.isEmpty ∧ m.all isDig
  | _ => false

/-! ### Lemmas about the expanded address list -/

theorem hostsList_eq_range' (net p : Nat) (hp : p ≤ 30) :
    hostsList net p = List.range' (net + 1) (2 ^ (32 - p) - 2) := by
  have h4 : 4 ≤ 2 ^ (32 - p) := by
    calc (4 : Nat) = 2 ^ 2 := by norm_num
    _ ≤ 2 ^ (32 - p) := Nat.pow_le_pow_right (by norm_num) (by omega)
  unfold hostsList
  have h1 : p ≠ 32 := by omega
  have h2 : p ≠ 31 := by omega
  simp only [h1, h2, if_false]
  congr 1
  omega

theorem hostsList_length (net p : Nat) (hp : p ≤ 30) :
    (hostsList net p).length = 2 ^ (32 - p) - 2 := by
  simp [hostsList_eq_range' net p hp]

theorem hostsList_chain' (net p : Nat) (hp : p ≤ 30) :
    List.Chain' (· < ·) (hostsList net p) := by
  rw [hostsList_eq_range' net p hp]
  cases h : 2 ^ (32 - p) - 2 with
  | zero => simp
  | succ m =>
    rw [List.range'_succ]
    exact List.chain_lt_range' (net + 1) m Nat.zero_lt_one

theorem hostsList_nodup (net p : Nat) (hp : p ≤ 30) :
    (hostsList net p).Nodup := by
  rw [hostsList_eq_range' net p hp]
  exact List.nodup_range' _ _

theorem hostsList_mem (net p a : Nat) (hp : p ≤ 30) :
    a ∈ hostsList net p ↔ net < a ∧ a < net + (2 ^ (32 - p) - 1) := by
  have h4 : 4 ≤ 2 ^ (32 - p) := by
    calc (4 : Nat) = 2 ^ 2 := by norm_num
    _ ≤ 2 ^ (32 - p) := Nat.pow_le_pow_right (by norm_num) (by omega)
  rw [hostsList_eq_range' net p hp, List.mem_range'_1]
  omega

/-! ### The netmask and the strictness check -/

theorem netmaskInt_testBit (p i : Nat) (hp : p ≤ 32) :
    (netmaskInt p).testBit i = (decide (32 - p ≤ i) && decide (i < 32)) := by
  unfold netmaskInt
  rw [Nat.testBit_xor]
  have hshift : ((4294967296 - 1) >>> p).testBit i = (4294967296 - 1).testBit (p + i) :=
    Nat.testBit_shiftRight _
  rw [hshift]
  have e1 : (4294967296 : Nat) - 1 = 2 ^ 32 - 1 := by norm_num
  rw [e1, Nat.testBit_two_pow_sub_one, Nat.testBit_two_pow_sub_one]
  by_cases h1 : i < 32 <;> by_cases h2 : p + i < 32 <;>
    simp [h1, h2] <;> omega

/-- The strictness check of `IPv4Network.__init__`
(`packed & int(self.netmask) == packed`) holds exactly when the address is
a multiple of the host-part block size. -/
theorem land_netmask_eq_iff (ip p : Nat) (hip : ip < 2 ^ 32) (hp : p ≤ 32) :
    ip &&& netmaskInt p = ip ↔ ip % 2 ^ (32 - p) = 0 := by
  constructor
  · intro h
    apply Nat.eq_of_testBit_eq
    intro i
    rw [Nat.testBit_mod_two_pow, Nat.zero_testBit]
    by_cases hi : i < 32 - p
    · have hb := congrArg (fun x => Nat.testBit x i) h
      simp only [Nat.testBit_land, netmaskInt_testBit p i hp] at hb
      rw [decide_eq_false (by omega : ¬ (32 - p ≤ i))] at hb
      simp only [Bool.false_and, Bool.and_false] at hb
      rw [← hb]
      simp
    · simp [hi]
  · intro h
    apply Nat.eq_of_testBit_eq
    intro i
    rw [Nat.testBit_land, netmaskInt_testBit p i hp]
    by_cases h32 : i < 32
    · by_cases hi : i < 32 - p
      · have hz : ip.testBit i = false := by
          have hb := congrArg (fun x => Nat.testBit x i) h
          simp only [Nat.testBit_mod_two_pow, Nat.zero_testBit] at hb
          rw [decide_eq_true hi] at hb
          simpa using hb
        simp [hz]
      · rw [decide_eq_true (by omega : 32 - p ≤ i), decide_eq_true h32]
        simp
    · have hz : ip.testBit i = false :=
        Nat.testBit_eq_false_of_lt
          (lt_of_lt_of_le hip (Nat.pow_le_pow_right (by norm_num) (by omega)))
      simp [hz]

/-! ### Soundness of the parse model -/

theorem parseOctet_le {o : List Char} {v : Nat} (h : parseOctet o = some v) :
    v ≤ 255 := by
  unfold parseOctet at h
  repeat' split at h
  all_goals simp_all

theorem ipIntFromString_lt {a : List Char} {ip : Nat}
    (h : ipIntFromString a = some ip) : ip < 2 ^ 32 := by
  unfold ipIntFromString at h
  repeat' split at h
  all_goals (try simp_all)
  rename_i o1 o2 o3 o4 b1 b2 b3 b4 h1 h2 h3 h4
  have := parseOctet_le h1
  have := parseOctet_le h2
  have := parseOctet_le h3
  have := parseOctet_le h4
  have hpow : (2 : Nat) ^ 32 = 4294967296 := by norm_num
  omega

theorem prefixFromIpInt_le {n p : Nat} (h : prefixFromIpInt n = some p) :
    p ≤ 32 := by
  unfold prefixFromIpInt at h
  split at h
  · simp only [Option.some.injEq] at h
    omega
  · simp_all

theorem prefixFromPrefixString_le {m : List Char} {p : Nat}
    (h : prefixFromPrefixString m = some p) : p ≤ 32 := by
  unfold prefixFromPrefixString at h
  repeat' split at h
  all_goals simp_all

theorem prefixFromIpString_le {m : List Char} {p : Nat}
    (h : prefixFromIpString m = some p) : p ≤ 32 := by
  unfold prefixFromIpString at h
  repeat' split at h
  · simp only [Option.some.injEq] at h
    subst h
    exact prefixFromIpInt_le (by assumption)
  · exact prefixFromIpInt_le h
  · simp_all

theorem makeNetmask_le {m : List Char} {p : Nat} (h : makeNetmask m = some p) :
    p ≤ 32 := by
  unfold makeNetmask at h
  split at h
  · rename_i q hq
    simp only [Option.some.injEq] at h
    subst h
    exact prefixFromPrefixString_le hq
  · exact prefixFromIpString_le h

/-- What a successful strict parse guarantees: the prefix length is in
range, the network address fits in 32 bits and has no host bits set. -/
theorem pyIPv4Network_sound {s : String} {net p : Nat}
    (h : pyIPv4Network s = some (net, p)) :
    p ≤ 32 ∧ net < 2 ^ 32 ∧ net % 2 ^ (32 - p) = 0 := by
  unfold pyIPv4Network at h
  split at h
  · next a ha =>
    cases hip : ipIntFromString a with
    | none => simp [hip] at h
    | some ip =>
      simp only [hip, Option.some.injEq, Prod.mk.injEq] at h
      obtain ⟨h1, h2⟩ := h
      subst h1
      subst h2
      exact ⟨by omega, ipIntFromString_lt hip, Nat.mod_one ip⟩
  · next a m hsplit =>
    cases hip : ipIntFromString a with
    | none => simp [hip] at h
    | some ip =>
      cases hq : makeNetmask m with
      | none => simp [hip, hq] at h
      | some q =>
        simp only [hip, hq] at h
        split at h
        · simp only [Option.some.injEq, Prod.mk.injEq] at h
          obtain ⟨h1, h2⟩ := h
          subst h1
          subst h2
          rename_i hstrict
          exact ⟨makeNetmask_le hq, ipIntFromString_lt hip,
            (land_netmask_eq_iff _ _ (ipIntFromString_lt hip) (makeNetmask_le hq)).mp
              hstrict⟩
        · simp at h
  · simp at h

theorem hostsList_31 (net : Nat) : hostsList net 31 = [net, net + 1] := by
  unfold hostsList
  have h : net + (2 ^ (32 - 31) - 1) + 1 - net = 2 := by omega
  simp only [h]
  norm_num [List.range'_succ]

theorem hostsList_32 (net : Nat) : hostsList net 32 = [net] := by
  simp [hostsList]

end SubnetScraper

namespace SubnetScraper

/-- C2: for every subnet string accepted by the parser whose prefix length
is at most 30, the expanded host list has exactly `2^(32-prefix) - 2`
entries, is strictly ascending (hence duplicate-free), consists of exactly
the addresses strictly between the network address and the broadcast
address, and contains neither of those two.  Determinism is definitional:
`hostsList` is a function of the parsed network.  (Claim C2.) -/
theorem C2_expansion_count_order (s : String) (net p : Nat)
    (_hparse : pyIPv4Network s = some (net, p)) (hp : p ≤ 30) :
    (hostsList net p).length = 2 ^ (32 - p) - 2 ∧
    List.Chain' (· < ·) (hostsList net p) ∧
    (hostsList net p).Nodup ∧
    (∀ a, a ∈ hostsList net p ↔ net < a ∧ a < net + (2 ^ (32 - p) - 1)) ∧
    net ∉ hostsList net p ∧
    net + (2 ^ (32 - p) - 1) ∉ hostsList net p := by
  refine ⟨hostsList_length net p hp, hostsList_chain' net p hp,
    hostsList_nodup net p hp, fun a => hostsList_mem net p a hp, ?_, ?_⟩
  · rw [hostsList_mem net p net hp]
    omega
  · rw [hostsList_mem net p _ hp]
    omega

/-- Witness for C2 at the concrete subnet 10.0.0.0/30. -/
theorem C2_expansion_count_order_witness :
    pyIPv4Network "10.0.0.0/30" = some (167772160, 30) ∧
    (hostsList 167772160 30).length = 2 ^ (32 - 30) - 2 ∧
    (hostsList 167772160 30).Nodup := by
  have h := C2_expansion_count_order "10.0.0.0/30" 167772160 30 (by decide) (by decide)
  exact ⟨by decide, h.1, h.2.2.1⟩

/-- C9: the code resolves the spec's open question on degenerate prefixes
by Python's `hosts()` special cases: a /31 expands to exactly the two
addresses of its range and a /32 to its single address, and such subnet
strings are accepted without error (shown on concrete inputs). -/
theorem C9_degenerate_prefixes :
    (∀ net : Nat, hostsList net 31 = [net, net + 1]) ∧
    (∀ net : Nat, hostsList net 32 = [net]) ∧
    expandSubnet "192.168.1.0/31" = some ["192.168.1.0", "192.168.1.1"] ∧
    expandSubnet "192.168.1.7/32" = some ["192.168.1.7"] :=
  ⟨hostsList_31, hostsList_32, by decide, by decide⟩

/-! ### Injectivity of the dotted-decimal rendering -/

set_option maxRecDepth 2000 in
theorem parseOctet_octetStr : ∀ m, m < 256 → parseOctet (octetStr m) = some m := by
  decide

theorem octetStr_inj {m n : Nat} (hm : m < 256) (hn : n < 256)
    (h : octetStr m = octetStr n) : m = n := by
  have h1 := parseOctet_octetStr m hm
  have h2 := parseOctet_octetStr n hn
  rw [h, h2] at h1
  exact (Option.some.injEq _ _).mp h1.symm

set_option maxRecDepth 2000 in
theorem octetStr_ne_dot : ∀ m, m < 256 → ∀ c ∈ octetStr m, c ≠ '.' := by
  decide

/-- Splitting an append at a separator character absent from both head
parts is unambiguous. -/
theorem append_sep_inj {a1 a2 s1 s2 : List Char}
    (h1 : ∀ c ∈ a1, c ≠ '.') (h2 : ∀ c ∈ a2, c ≠ '.')
    (h : a1 ++ '.' :: s1 = a2 ++ '.' :: s2) : a1 = a2 ∧ s1 = s2 := by
  induction a1 generalizing a2 with
  | nil =>
    cases a2 with
    | nil => simpa using h
    | cons b t =>
      simp only [List.nil_append, List.cons_append, List.cons.injEq] at h
      exact absurd h.1.symm (h2 b (by simp))
  | cons a t ih =>
    cases a2 with
    | nil =>
      simp only [List.nil_append, List.cons_append, List.cons.injEq] at h
      exact absurd h.1 (h1 a (by simp))
    | cons b t2 =>
      simp only [List.cons_append, List.cons.injEq] at h
      obtain ⟨hab, ht⟩ := h
      have hrec := ih (fun c hc => h1 c (by simp [hc]))
        (fun c hc => h2 c (by simp [hc])) ht
      exact ⟨by rw [hab, hrec.1], hrec.2⟩

theorem ipToChars_inj {m n : Nat} (hm : m < 2 ^ 32) (hn : n < 2 ^ 32)
    (h : ipToChars m = ipToChars n) : m = n := by
  have hb : ∀ k : Nat, k % 256 < 256 := fun k => Nat.mod_lt _ (by norm_num)
  unfold ipToChars at h
  have e1 := append_sep_inj (octetStr_ne_dot _ (hb _)) (octetStr_ne_dot _ (hb _)) h
  have e2 := append_sep_inj (octetStr_ne_dot _ (hb _)) (octetStr_ne_dot _ (hb _)) e1.2
  have e3 := append_sep_inj (octetStr_ne_dot _ (hb _)) (octetStr_ne_dot _ (hb _)) e2.2
  have q1 := octetStr_inj (hb _) (hb _) e1.1
  have q2 := octetStr_inj (hb _) (hb _) e2.1
  have q3 := octetStr_inj (hb _) (hb _) e3.1
  have q4 := octetStr_inj (hb _) (hb _) e3.2
  have hpow : (2 : Nat) ^ 32 = 4294967296 := by norm_num
  omega

theorem ipToStr_inj {m n : Nat} (hm : m < 2 ^ 32) (hn : n < 2 ^ 32)
    (h : ipToStr m = ipToStr n) : m = n :=
  ipToChars_inj hm hn (congrArg String.data h)

/-! ### The expanded list of a parsed subnet, at the string level -/

theorem broadcast_lt {net p : Nat} (hp : p ≤ 32) (hlt : net < 2 ^ 32)
    (hmod : net % 2 ^ (32 - p) = 0) : net + (2 ^ (32 - p) - 1) < 2 ^ 32 := by
  obtain ⟨q, hq⟩ := Nat.dvd_of_mod_eq_zero hmod
  have hpow : (2 : Nat) ^ 32 = 2 ^ (32 - p) * 2 ^ p := by
    rw [← pow_add]
    congr 1
    omega
  have hqlt : q < 2 ^ p := by
    by_contra hc
    push_neg at hc
    have := Nat.mul_le_mul_left (2 ^ (32 - p)) hc
    omega
  have hstep : 2 ^ (32 - p) * (q + 1) ≤ 2 ^ (32 - p) * 2 ^ p :=
    Nat.mul_le_mul_left _ hqlt
  have hdist : 2 ^ (32 - p) * (q + 1) = 2 ^ (32 - p) * q + 2 ^ (32 - p) := by ring
  have hone : (1 : Nat) ≤ 2 ^ (32 - p) := Nat.one_le_two_pow
  omega

theorem hostsList_nodup_all {net p : Nat} (hp : p ≤ 32) :
    (hostsList net p).Nodup := by
  by_cases h32 : p = 32
  · subst h32
    simp [hostsList_32]
  · by_cases h31 : p = 31
    · subst h31
      rw [hostsList_31]
      simp
    · exact hostsList_nodup net p (by omega)

theorem hostsList_lt {net p : Nat} (hp : p ≤ 32) (hlt : net < 2 ^ 32)
    (hmod : net % 2 ^ (32 - p) = 0) :
    ∀ a ∈ hostsList net p, a < 2 ^ 32 := by
  have hbc := broadcast_lt hp hlt hmod
  intro a ha
  by_cases h32 : p = 32
  · subst h32
    rw [hostsList_32] at ha
    simp at ha
    omega
  · by_cases h31 : p = 31
    · subst h31
      rw [hostsList_31] at ha
      have : (2 : Nat) ^ (32 - 31) - 1 = 1 := by norm_num
      simp at ha
      rcases ha with rfl | rfl <;> omega
    · rw [hostsList_mem net p a (by omega)] at ha
      omega

/-- The string-level address set of any subnet accepted by the parser has
no duplicates. -/
theorem hostsStr_nodup {s : String} {net p : Nat}
    (hparse : pyIPv4Network s = some (net, p)) :
    ((hostsList net p).map ipToStr).Nodup := by
  obtain ⟨hp, hlt, hmod⟩ := pyIPv4Network_sound hparse
  have hbound := hostsList_lt hp hlt hmod
  exact (hostsList_nodup_all hp).map_on fun x hx y hy hxy =>
    ipToStr_inj (hbound x hx) (hbound y hy) hxy

/-! ### Dict and scan lemmas -/

theorem dictLookup_insert_self (d : List (String × Bool)) (k : String) (v : Bool) :
    dictLookup (dictInsert d k v) k = some v := by
  induction d with
  | nil => simp [dictInsert, dictLookup]
  | cons q t ih =>
    by_cases h : q.1 = k
    · simp [dictInsert, dictLookup, h]
    · simp [dictInsert, dictLookup, h, ih]

theorem dictLookup_insert_ne (d : List (String × Bool)) (k k' : String) (v : Bool)
    (h : k' ≠ k) : dictLookup (dictInsert d k v) k' = dictLookup d k' := by
  have hkk : k ≠ k' := Ne.symm h
  induction d with
  | nil => simp only [dictInsert, dictLookup, if_neg hkk]
  | cons q t ih =>
    obtain ⟨a, b⟩ := q
    simp only [dictInsert]
    by_cases hq : a = k
    · rw [if_pos hq]
      simp only [dictLookup]
      have ha : a ≠ k' := by rw [hq]; exact hkk
      rw [if_neg ha, if_neg ha]
    · rw [if_neg hq]
      simp only [dictLookup]
      by_cases hq' : a = k'
      · rw [if_pos hq', if_pos hq']
      · rw [if_neg hq', if_neg hq', ih]

theorem dictInsert_fresh (d : List (String × Bool)) (k : String) (v : Bool)
    (h : k ∉ d.map Prod.fst) : dictInsert d k v = d ++ [(k, v)] := by
  induction d with
  | nil => rfl
  | cons q t ih =>
    obtain ⟨a, b⟩ := q
    simp only [List.map_cons, List.mem_cons] at h
    push_neg at h
    simp only [dictInsert, if_neg (Ne.symm h.1), List.cons_append, List.cons.injEq,
      true_and]
    exact ih h.2

/-- The result dict of a scan is the fold of per-address insertions, both
on the normal and on the exception path of the collection loop. -/
theorem scan_results_foldl (n : Nat) (l : List (String × Except Unit Bool))
    (st : ScanState) :
    (l.foldl (scanStep n) st).results =
      l.foldl (fun d q => dictInsert d q.1 (resolveProbe q.2)) st.results := by
  induction l generalizing st with
  | nil => rfl
  | cons q t ih =>
    cases q with
    | mk ip r => cases r <;> simp [scanStep, ih, resolveProbe]

theorem foldl_dictInsert_fresh (ips : List String) (f : String → Bool) :
    ∀ d : List (String × Bool), (∀ ip ∈ ips, ip ∉ d.map Prod.fst) → ips.Nodup →
      ips.foldl (fun acc ip => dictInsert acc ip (f ip)) d =
        d ++ ips.map fun ip => (ip, f ip) := by
  induction ips with
  | nil => intro d _ _; simp
  | cons ip t ih =>
    intro d hd hnd
    simp only [List.foldl_cons, List.map_cons]
    rw [dictInsert_fresh d ip (f ip) (hd ip (by simp))]
    rw [ih (d ++ [(ip, f ip)])
      (fun x hx => by
        simp only [List.map_append, List.mem_append, List.map_cons, List.map_nil] at *
        push_neg
        refine ⟨fun hc => hd x (by simp [hx]) (by simp [hc]), ?_⟩
        simp only [List.mem_singleton]
        intro hc
        exact (List.nodup_cons.mp hnd).1 (hc ▸ hx))
      (List.nodup_cons.mp hnd).2]
    simp

/-- Characterization of the scan's result dict for a duplicate-free
address list: it is exactly the submission-ordered association of each
address with its own probe's collapsed outcome. -/
theorem scan_results_eq (ips : List String) (probe : String → Except Unit Bool)
    (h : ips.Nodup) :
    (ping_subnet_with_threadpool ips probe).results =
      ips.map fun ip => (ip, resolveProbe (probe ip)) := by
  unfold ping_subnet_with_threadpool
  rw [scan_results_foldl]
  rw [List.foldl_map]
  exact foldl_dictInsert_fresh ips (fun ip => resolveProbe (probe ip)) [] (by simp) h

theorem dictLookup_map_self (ips : List String) (f : String → Bool) (ip : String)
    (h : ip ∈ ips) :
    dictLookup (ips.map fun x => (x, f x)) ip = some (f ip) := by
  induction ips with
  | nil => simp at h
  | cons x t ih =>
    by_cases hx : x = ip
    · subst hx
      simp [dictLookup]
    · rcases List.mem_cons.mp h with rfl | hmem
      · exact absurd rfl hx
      · simp [dictLookup, hx, ih hmem]

end SubnetScraper

namespace SubnetScraper

/-- C1: for every duplicate-free address list (every AddressSet is such, by
the second conjunct), the result dict of `ping_subnet_with_threadpool` is
exactly one entry per address, in submission order, each address mapped to
the collapsed outcome of its own probe invocation (`Except.error`, a
raised `future.result()`, collapses to `false`, never to omission), so
`|result| = |addressSet|`.  Completion order cannot influence the result:
the source iterates the submission-ordered `(future, ip)` pairs, which the
embedding reflects by quantifying over an arbitrary per-address outcome
assignment. -/
theorem C1_scan_result_complete (ips : List String)
    (probe : String → Except Unit Bool) (hnd : ips.Nodup) :
    ((ping_subnet_with_threadpool ips probe).results =
        ips.map fun ip => (ip, resolveProbe (probe ip))) ∧
    (ping_subnet_with_threadpool ips probe).results.length = ips.length ∧
    (ping_subnet_with_threadpool ips probe).results.map Prod.fst = ips ∧
    (∀ ip ∈ ips, dictLookup (ping_subnet_with_threadpool ips probe).results ip =
        some (resolveProbe (probe ip))) ∧
    (∀ s net p, pyIPv4Network s = some (net, p) →
      ((hostsList net p).map ipToStr).Nodup) := by
  have hres := scan_results_eq ips probe hnd
  have hfst : (Prod.fst ∘ fun ip => (ip, resolveProbe (probe ip))) = id := rfl
  refine ⟨hres, by rw [hres]; simp,
    by rw [hres, List.map_map, hfst, List.map_id], ?_, ?_⟩
  · intro ip hip
    rw [hres]
    exact dictLookup_map_self ips _ ip hip
  · intro s net p hparse
    exact hostsStr_nodup hparse

/-- Witness for C1 at a concrete scan: the /30 address set, one probe
succeeding, one raising. -/
theorem C1_scan_result_complete_witness :
    (["192.168.1.1", "192.168.1.2"] : List String).Nodup ∧
    (ping_subnet_with_threadpool ["192.168.1.1", "192.168.1.2"]
        (fun ip => if ip = "192.168.1.1" then .ok true else .error ())).results =
      [("192.168.1.1", true), ("192.168.1.2", false)] := by
  refine ⟨by decide, ?_⟩
  have h := C1_scan_result_complete ["192.168.1.1", "192.168.1.2"]
    (fun ip => if ip = "192.168.1.1" then .ok true else .error ()) (by decide)
  rw [h.1]
  decide

/-! ### The progress log of a scan -/

theorem filterMap_cons_toList {α β : Type} (g : α → Option β) (a : α) (l : List α) :
    List.filterMap g (a :: l) = (g a).toList ++ List.filterMap g l := by
  cases h : g a <;> simp [List.filterMap_cons, h]

/-- Closed form of the progress log accumulated by the collection loop
when every `future.result()` returns normally (as it does for the two ping
functions, which catch every exception): starting from state `st`, the
`i`-th processed address emits at completion count `st.completed + i + 1`
whatever `display_progress` yields there, the final-checkpoint message
carrying the running reachable tally. -/
theorem scan_log_fold (f : String → Bool) (n : Nat) :
    ∀ (rest : List String) (st : ScanState),
      ((rest.map fun ip => (ip, Except.ok (f ip))).foldl (scanStep n) st).log =
        st.log ++ (List.range rest.length).filterMap fun i =>
          (display_progress (st.completed + i + 1) n
            (if st.completed + i + 1 = n
             then some (st.reachable + (rest.take (i + 1)).countP f)
             else none)).map fun m => (st.completed + i + 1, m)
  | [], st => by simp
  | ip :: t, st => by
    simp only [List.map_cons, List.foldl_cons]
    rw [scan_log_fold f n t (scanStep n st (ip, Except.ok (f ip)))]
    have hcomp : (scanStep n st (ip, Except.ok (f ip))).completed = st.completed + 1 := by
      simp [scanStep]
    have hreach : (scanStep n st (ip, Except.ok (f ip))).reachable =
        st.reachable + (if f ip then 1 else 0) := by
      cases hfip : f ip <;> simp [scanStep, hfip]
    have hlog : (scanStep n st (ip, Except.ok (f ip))).log =
        st.log ++ ((display_progress (st.completed + 1) n
            (if st.completed + 1 = n
             then some (st.reachable + ((ip :: t).take 1).countP f)
             else none)).map fun m => (st.completed + 1, m)).toList := by
      have harg : st.reachable + ((ip :: t).take 1).countP f =
          if f ip then st.reachable + 1 else st.reachable := by
        cases hfip : f ip <;> simp [List.countP_cons, hfip]
      rw [harg]
      cases hd : display_progress (st.completed + 1) n
          (if st.completed + 1 = n
           then some (if f ip then st.reachable + 1 else st.reachable) else none) <;>
        simp [scanStep, hd]
    rw [hcomp, hreach, hlog, List.append_assoc]
    congr 1
    rw [List.length_cons, List.range_succ_eq_map, filterMap_cons_toList,
      List.filterMap_map]
    congr 1
    apply List.filterMap_congr
    intro i hi
    simp only [Function.comp_apply]
    have e1 : st.completed + 1 + i + 1 = st.completed + (i + 1) + 1 := by omega
    have e2 : st.reachable + (if f ip then 1 else 0) + (t.take (i + 1)).countP f =
        st.reachable + ((ip :: t).take (i + 1 + 1)).countP f := by
      rw [List.take_succ_cons, List.countP_cons]
      omega
    rw [e1, e2]

/-- Closed form of the full scan's log from the initial state. -/
theorem scan_log_eq (ips : List String) (f : String → Bool) :
    (ping_subnet_with_threadpool ips (fun ip => Except.ok (f ip))).log =
      (List.range ips.length).filterMap fun i =>
        (display_progress (i + 1) ips.length
          (if i + 1 = ips.length then some ((ips.take (i + 1)).countP f)
           else none)).map fun m => (i + 1, m) := by
  unfold ping_subnet_with_threadpool
  rw [scan_log_fold f ips.length ips ⟨[], 0, 0, []⟩]
  simp only [List.nil_append]
  apply List.filterMap_congr
  intro i hi
  norm_num

theorem filterMap_option_const {α : Type} (l : List Nat) (h : Nat → Option α) :
    (l.filterMap fun i => (h i).map fun _ => i + 1) =
      (l.filter fun i => (h i).isSome).map fun i => i + 1 := by
  induction l with
  | nil => rfl
  | cons a t ih =>
    cases hd : h a <;> simp [List.filterMap_cons, List.filter_cons, hd, ih]

theorem display_progress_isSome (c n : Nat) (r : Option Nat) :
    (display_progress c n r).isSome =
      decide (c ∈ [1, n / 4, n / 2, 3 * n / 4, n]) := by
  unfold display_progress
  by_cases hmem : c ∈ [1, n / 4, n / 2, 3 * n / 4, n]
  · rw [if_pos (Or.inl hmem)]
    cases r with
    | none => simp [hmem]
    | some v =>
      by_cases hc : c = n <;> simp [hc, hmem]
  · have hcn : ¬ c = n := fun hc => hmem (by simp [hc])
    rw [if_neg (by tauto)]
    simp [hmem]

end SubnetScraper

namespace SubnetScraper

/-- C5: for every scan whose probe invocations complete normally (as the
two source ping functions always do — they catch every exception and
return a bool), a progress notification is emitted exactly when the
completion count is one of `{1, ⌊25%⌋, ⌊50%⌋, ⌊75%⌋, total}` — the first
conjunct says the emitted counts are precisely the checkpoint members of
`1..total`, each once, so coinciding checkpoint values collapse to a
single notification — and any notification emitted at completion count
`total` is the final-form message carrying the reachable-host tally
instead of a percentage.  For 40 addresses the counts are exactly
{1, 10, 20, 30, 40}. -/
theorem C5_progress_checkpoints (ips : List String) (f : String → Bool) :
    ((ping_subnet_with_threadpool ips (fun ip => Except.ok (f ip))).log.map Prod.fst =
      ((List.range ips.length).map (· + 1)).filter fun c =>
        decide (c ∈ [1, ips.length / 4, ips.length / 2, 3 * ips.length / 4,
          ips.length])) ∧
    (∀ m, (ips.length, m) ∈
        (ping_subnet_with_threadpool ips (fun ip => Except.ok (f ip))).log →
      m = ProgressMsg.final (ips.countP f)) ∧
    (ips.length = 40 →
      (ping_subnet_with_threadpool ips (fun ip => Except.ok (f ip))).log.map
        Prod.fst = [1, 10, 20, 30, 40]) := by
  have hlog := scan_log_eq ips f
  have hfst : (ping_subnet_with_threadpool ips
      (fun ip => Except.ok (f ip))).log.map Prod.fst =
      ((List.range ips.length).map (· + 1)).filter fun c =>
        decide (c ∈ [1, ips.length / 4, ips.length / 2, 3 * ips.length / 4,
          ips.length]) := by
    rw [hlog, List.map_filterMap]
    have step1 : ((List.range ips.length).filterMap fun i =>
        ((display_progress (i + 1) ips.length
          (if i + 1 = ips.length then some ((ips.take (i + 1)).countP f)
           else none)).map fun m => (i + 1, m)).map Prod.fst) =
        (List.range ips.length).filterMap fun i =>
          (display_progress (i + 1) ips.length
            (if i + 1 = ips.length then some ((ips.take (i + 1)).countP f)
             else none)).map fun _ => i + 1 := by
      apply List.filterMap_congr
      intro i hi
      rw [Option.map_map]
      rfl
    rw [step1, filterMap_option_const]
    have step2 : ((List.range ips.length).filter fun i =>
        (display_progress (i + 1) ips.length
          (if i + 1 = ips.length then some ((ips.take (i + 1)).countP f)
           else none)).isSome) =
        (List.range ips.length).filter fun i =>
          decide ((i + 1) ∈ [1, ips.length / 4, ips.length / 2,
            3 * ips.length / 4, ips.length]) := by
      apply List.filter_congr
      intro i hi
      rw [display_progress_isSome]
    rw [step2, List.filter_map]
    rfl
  refine ⟨hfst, ?_, ?_⟩
  · intro m hm
    rw [hlog] at hm
    rw [List.mem_filterMap] at hm
    obtain ⟨i, hi, hgi⟩ := hm
    cases hd : display_progress (i + 1) ips.length
        (if i + 1 = ips.length then some ((ips.take (i + 1)).countP f)
         else none) with
    | none => rw [hd] at hgi; simp at hgi
    | some msg =>
      rw [hd] at hgi
      simp only [Option.map_some', Option.some.injEq, Prod.mk.injEq] at hgi
      obtain ⟨hidx, hmsg⟩ := hgi
      rw [hidx] at hd
      rw [if_pos rfl] at hd
      unfold display_progress at hd
      rw [if_pos (Or.inr rfl)] at hd
      simp [List.take_length] at hd
      subst hmsg
      exact hd.symm
  · intro h40
    rw [hfst, h40]
    decide

/-- Witness for C5 on a concrete 40-address scan. -/
theorem C5_progress_checkpoints_witness :
    (List.replicate 40 "h").length = 40 ∧
    (ping_subnet_with_threadpool (List.replicate 40 "h")
        (fun _ => Except.ok true)).log.map Prod.fst = [1, 10, 20, 30, 40] :=
  ⟨by simp, (C5_progress_checkpoints (List.replicate 40 "h")
    (fun _ => true)).2.2 (by simp)⟩

/-- C3: neither probe variant ever propagates a failure: a raised
subprocess call (spawn failure), a non-zero exit, and — for the Windows
variant — output without the expected match all yield `false` (the models
are total functions, mirroring the `except Exception: return False`
wrappers in the source), and a probe mechanism that always fails to
execute yields a scan mapping every address to `false`, with the run
completing and persisting an all-false record. -/
theorem C3_probe_failure_safe :
    (∀ (env : String → SubprocessOutcome) (ip : String), env ip = .raised →
      ping_ip_windows env ip = false ∧ ping_ip_linux env ip = false) ∧
    (∀ (env : String → SubprocessOutcome) (ip : String) (rc : Int) (out : String),
      env ip = .completed rc out → rc ≠ 0 →
      ping_ip_windows env ip = false ∧ ping_ip_linux env ip = false) ∧
    (∀ (env : String → SubprocessOutcome) (ip : String) (rc : Int) (out : String),
      env ip = .completed rc out → containsSub "Reply from".data out.data = false →
      ping_ip_windows env ip = false) ∧
    (∀ (ips : List String) (env : String → SubprocessOutcome) (date subnet : String),
      (∀ ip, env ip = .raised) → ips.Nodup →
      (∀ ip ∈ ips,
        dictLookup (ping_subnet_with_threadpool ips
          (fun ip => Except.ok (ping_ip_linux env ip))).results ip = some false) ∧
      output date (ping_subnet_with_threadpool ips
          (fun ip => Except.ok (ping_ip_linux env ip))).results [(subnet, ips)] =
        [(output_filename date subnet,
          ["IP Address", "Reachable"] :: ips.map fun ip => [ip, "false"])]) := by
  refine ⟨?_, ?_, ?_, ?_⟩
  · intro env ip h
    constructor <;> simp [ping_ip_windows, ping_ip_linux, h]
  · intro env ip rc out h hrc
    constructor <;> simp [ping_ip_windows, ping_ip_linux, h, hrc]
  · intro env ip rc out h hout
    simp [ping_ip_windows, h, hout]
  · intro ips env date subnet hraised hnd
    have hfalse : ∀ ip, ping_ip_linux env ip = false := by
      intro ip
      simp [ping_ip_linux, hraised ip]
    have hres := scan_results_eq ips (fun ip => Except.ok (ping_ip_linux env ip)) hnd
    constructor
    · intro ip hip
      rw [hres, dictLookup_map_self ips _ ip hip]
      simp [resolveProbe, hfalse ip]
    · have hrows : (ips.map fun ip =>
          [ip, bool_str (dictGetD (ping_subnet_with_threadpool ips
            (fun ip => Except.ok (ping_ip_linux env ip))).results ip false)]) =
          ips.map fun ip => [ip, "false"] := by
        apply List.map_congr_left
        intro ip hip
        rw [dictGetD, hres, dictLookup_map_self ips _ ip hip]
        simp [resolveProbe, hfalse ip, bool_str]
      simp only [output, List.map_cons, List.map_nil, outputRecord, hrows]

/-- Witness for C3: a concrete two-address scan whose probe mechanism
always raises. -/
theorem C3_probe_failure_safe_witness :
    ping_ip_linux (fun _ => SubprocessOutcome.raised) "192.168.1.1" = false ∧
    output "01JAN2026" (ping_subnet_with_threadpool ["192.168.1.1", "192.168.1.2"]
        (fun ip => Except.ok (ping_ip_linux (fun _ => SubprocessOutcome.raised) ip))).results
        [("192.168.1.0/30", ["192.168.1.1", "192.168.1.2"])] =
      [("01JAN2026_ping results_192.168.1.0_30.csv",
        [["IP Address", "Reachable"], ["192.168.1.1", "false"],
          ["192.168.1.2", "false"]])] := by
  have h := C3_probe_failure_safe
  have h4 := h.2.2.2 ["192.168.1.1", "192.168.1.2"] (fun _ => SubprocessOutcome.raised)
    "01JAN2026" "192.168.1.0/30" (fun _ => rfl) (by decide)
  exact ⟨(h.1 (fun _ => SubprocessOutcome.raised) "192.168.1.1" rfl).2,
    by rw [h4.2]; decide⟩

/-- C4: the persisted record of a subnet is a header row followed by
exactly one row per address in AddressSet order, the outcome rendered as
lowercase true/false, and on the concrete /30 scenario (probe of `.1`
true, probe of `.2` false) the rows are `192.168.1.1,true` then
`192.168.1.2,false`. -/
theorem C4_record_rows (results : List (String × Bool)) (ips : List String)
    (i : Nat) (ip : String) (hip : ips[i]? = some ip) :
    (outputRecord results ips).length = ips.length + 1 ∧
    (outputRecord results ips).head? = some ["IP Address", "Reachable"] ∧
    (outputRecord results ips)[i + 1]? =
      some [ip, bool_str (dictGetD results ip false)] ∧
    outputRecord (ping_subnet_with_threadpool
        ((expandSubnet "192.168.1.0/30").getD [])
        (fun a => Except.ok (a == "192.168.1.1"))).results
        ((expandSubnet "192.168.1.0/30").getD []) =
      [["IP Address", "Reachable"], ["192.168.1.1", "true"],
        ["192.168.1.2", "false"]] := by
  refine ⟨by simp [outputRecord], by simp [outputRecord], ?_, by decide⟩
  simp only [outputRecord, List.getElem?_cons_succ, List.getElem?_map, hip,
    Option.map_some']

/-- Witness for C4 at a concrete record. -/
theorem C4_record_rows_witness :
    (["192.168.1.1", "192.168.1.2"] : List String)[0]? = some "192.168.1.1" ∧
    (outputRecord [("192.168.1.1", true)] ["192.168.1.1", "192.168.1.2"])[1]? =
      some ["192.168.1.1", "true"] := by
  have h := C4_record_rows [("192.168.1.1", true)] ["192.168.1.1", "192.168.1.2"]
    0 "192.168.1.1" (by decide)
  refine ⟨by decide, ?_⟩
  rw [h.2.2.1]
  decide

/-- C10: persistence is total over the AddressSet: an address with no
entry in the results dict still gets a row, with outcome `false` (from
`results.get(ip, False)`), rather than being omitted or failing. -/
theorem C10_missing_address_false (results : List (String × Bool))
    (ips : List String) (i : Nat) (ip : String) (hip : ips[i]? = some ip)
    (hmiss : dictLookup results ip = none) :
    (outputRecord results ips)[i + 1]? = some [ip, "false"] ∧
    (outputRecord results ips).length = ips.length + 1 := by
  constructor
  · simp only [outputRecord, List.getElem?_cons_succ, List.getElem?_map, hip,
      Option.map_some']
    rw [dictGetD, hmiss]
    rfl
  · simp [outputRecord]

/-- Witness for C10: an empty results dict still yields a `false` row. -/
theorem C10_missing_address_false_witness :
    (["10.0.0.1"] : List String)[0]? = some "10.0.0.1" ∧
    dictLookup [] "10.0.0.1" = none ∧
    (outputRecord [] ["10.0.0.1"])[1]? = some ["10.0.0.1", "false"] :=
  ⟨by decide, rfl,
    (C10_missing_address_false [] ["10.0.0.1"] 0 "10.0.0.1" (by decide) rfl).1⟩

/-! ### Characters of strings accepted by the parser -/

theorem splitOnChar_ne_nil (sep : Char) (l : List Char) :
    splitOnChar sep l ≠ [] := by
  cases l with
  | nil => simp [splitOnChar]
  | cons c cs =>
    unfold splitOnChar
    cases hs : splitOnChar sep cs with
    | nil => by_cases hc : c = sep <;> simp [hc]
    | cons p ps => by_cases hc : c = sep <;> simp [hc]

theorem joinWithChar_splitOnChar (sep : Char) (l : List Char) :
    joinWithChar sep (splitOnChar sep l) = l := by
  induction l with
  | nil => rfl
  | cons c cs ih =>
    unfold splitOnChar
    cases hs : splitOnChar sep cs with
    | nil => exact absurd hs (splitOnChar_ne_nil sep cs)
    | cons p ps =>
      rw [hs] at ih
      by_cases hc : c = sep
      · cases ps with
        | nil =>
          simp only [joinWithChar] at ih
          simp only [if_pos hc, joinWithChar, List.nil_append]
          rw [hc, ih]
        | cons q qs =>
          simp only [joinWithChar, List.cons_append] at ih
          simp only [if_pos hc, joinWithChar, List.nil_append]
          rw [hc, ih]
      · cases ps with
        | nil =>
          simp only [joinWithChar] at ih
          simp only [if_neg hc, joinWithChar]
          rw [ih]
        | cons q qs =>
          simp only [joinWithChar, List.cons_append] at ih
          simp only [if_neg hc, joinWithChar, List.cons_append]
          rw [ih]

theorem mem_joinWithChar {sep c : Char} :
    ∀ {parts : List (List Char)}, c ∈ joinWithChar sep parts →
      c = sep ∨ ∃ part ∈ parts, c ∈ part
  | [], h => by simp [joinWithChar] at h
  | [p], h => by
    simp only [joinWithChar] at h
    exact Or.inr ⟨p, by simp, h⟩
  | p :: q :: ps, h => by
    simp only [joinWithChar, List.mem_append, List.mem_cons] at h
    rcases h with hp | hsep | hrest
    · exact Or.inr ⟨p, by simp, hp⟩
    · exact Or.inl hsep
    · rcases mem_joinWithChar hrest with hs | ⟨part, hpart, hc⟩
      · exact Or.inl hs
      · exact Or.inr ⟨part, by simp [hpart], hc⟩

theorem parseOctet_digits {o : List Char} {v : Nat} (h : parseOctet o = some v) :
    ∀ c ∈ o, isDig c := by
  unfold parseOctet at h
  repeat' split at h
  all_goals simp_all [List.all_eq_true]

theorem ipIntFromString_chars {a : List Char} {ip : Nat}
    (h : ipIntFromString a = some ip) : ∀ c ∈ a, isDig c ∨ c = '.' := by
  unfold ipIntFromString at h
  split at h
  · simp at h
  · split at h
    · next o1 o2 o3 o4 heq =>
      have ha : a = joinWithChar '.' [o1, o2, o3, o4] := by
        rw [← heq, joinWithChar_splitOnChar]
      repeat' split at h
      · next h1 h2 h3 h4 =>
        intro c hc
        rw [ha] at hc
        rcases mem_joinWithChar hc with hdot | ⟨part, hpart, hcp⟩
        · exact Or.inr hdot
        · left
          simp only [List.mem_cons, List.not_mem_nil, or_false] at hpart
          rcases hpart with rfl | rfl | rfl | rfl
          · exact parseOctet_digits h1 c hcp
          · exact parseOctet_digits h2 c hcp
          · exact parseOctet_digits h3 c hcp
          · exact parseOctet_digits h4 c hcp
      · simp at h
    · simp at h

theorem prefixFromPrefixString_chars {m : List Char} {p : Nat}
    (h : prefixFromPrefixString m = some p) : ∀ c ∈ m, isDig c := by
  unfold prefixFromPrefixString at h
  repeat' split at h
  all_goals simp_all [List.all_eq_true]

theorem makeNetmask_chars {m : List Char} {p : Nat} (h : makeNetmask m = some p) :
    ∀ c ∈ m, isDig c ∨ c = '.' := by
  unfold makeNetmask at h
  split at h
  · next q hq =>
    intro c hc
    exact Or.inl (prefixFromPrefixString_chars hq c hc)
  · unfold prefixFromIpString at h
    split at h
    · next ipInt hip =>
      intro c hc
      exact ipIntFromString_chars hip c hc
    · simp at h

/-- Every string the strict parser accepts consists of decimal digits,
dots, and at most one slash — in particular it contains no underscore. -/
theorem pyIPv4Network_chars {s : String} {net p : Nat}
    (h : pyIPv4Network s = some (net, p)) :
    ∀ c ∈ s.data, isDig c ∨ c = '.' ∨ c = '/' := by
  unfold pyIPv4Network at h
  split at h
  · next a ha =>
    have hs : s.data = a := by
      rw [← joinWithChar_splitOnChar '/' s.data, ha]
      rfl
    cases hip : ipIntFromString a with
    | none => rw [hip] at h; simp at h
    | some ip =>
      intro c hc
      rw [hs] at hc
      rcases ipIntFromString_chars hip c hc with hd | hdot
      · exact Or.inl hd
      · exact Or.inr (Or.inl hdot)
  · next a m hsplit =>
    have hs : s.data = a ++ '/' :: m := by
      rw [← joinWithChar_splitOnChar '/' s.data, hsplit]
      rfl
    cases hip : ipIntFromString a with
    | none => simp [hip] at h
    | some ip =>
      cases hq : makeNetmask m with
      | none => simp [hip, hq] at h
      | some q =>
        intro c hc
        rw [hs] at hc
        simp only [List.mem_append, List.mem_cons] at hc
        rcases hc with hca | hcs | hcm
        · rcases ipIntFromString_chars hip c hca with hd | hdot
          · exact Or.inl hd
          · exact Or.inr (Or.inl hdot)
        · exact Or.inr (Or.inr hcs)
        · rcases makeNetmask_chars hq c hcm with hd | hdot
          · exact Or.inl hd
          · exact Or.inr (Or.inl hdot)
  · simp at h

theorem accepted_no_underscore {s : String} {net p : Nat}
    (h : pyIPv4Network s = some (net, p)) : ∀ c ∈ s.data, c ≠ '_' := by
  intro c hc
  rcases pyIPv4Network_chars h c hc with hd | hdot | hslash
  · intro hu
    subst hu
    exact absurd hd (by decide)
  · intro hu
    rw [hu] at hdot
    exact absurd hdot (by decide)
  · intro hu
    rw [hu] at hslash
    exact absurd hslash (by decide)

/-- Replacing `/` by `_` is injective on underscore-free strings. -/
theorem map_slash_inj :
    ∀ (l1 l2 : List Char), (∀ c ∈ l1, c ≠ '_') → (∀ c ∈ l2, c ≠ '_') →
      l1.map (fun c => if c = '/' then '_' else c) =
        l2.map (fun c => if c = '/' then '_' else c) → l1 = l2
  | [], [], _, _, _ => rfl
  | [], c :: t, _, _, h => by simp at h
  | c :: t, [], _, _, h => by simp at h
  | c1 :: t1, c2 :: t2, h1, h2, h => by
    simp only [List.map_cons, List.cons.injEq] at h
    obtain ⟨hhead, htail⟩ := h
    have hc : c1 = c2 := by
      by_cases e1 : c1 = '/' <;> by_cases e2 : c2 = '/'
      · rw [e1, e2]
      · rw [if_pos e1, if_neg e2] at hhead
        exact absurd hhead.symm (h2 c2 (by simp))
      · rw [if_neg e1, if_pos e2] at hhead
        exact absurd hhead (h1 c1 (by simp))
      · rwa [if_neg e1, if_neg e2] at hhead
    rw [hc, map_slash_inj t1 t2 (fun c hcm => h1 c (by simp [hcm]))
      (fun c hcm => h2 c (by simp [hcm])) htail]

end SubnetScraper

namespace SubnetScraper

/-- C6: the output file name is a deterministic function — date, the
fixed text, the subnet identifier with the slash replaced by an
underscore, and the ".csv" suffix — of the
current date and the subnet identifier alone — so two runs for the same
subnet on the same date produce the same name, the second overwriting the
first — and for two distinct subnet strings both accepted by the parser,
the names on a common date always differ (accepted strings contain no
underscore, so the replacement is injective on them). -/
theorem C6_filename_deterministic_distinct :
    (∀ date subnet : String, output_filename date subnet =
      date ++ "_ping results_" ++
        String.mk (subnet.data.map fun c => if c = '/' then '_' else c) ++ ".csv") ∧
    (∀ (date s1 s2 : String), (pyIPv4Network s1).isSome →
      (pyIPv4Network s2).isSome → s1 ≠ s2 →
      output_filename date s1 ≠ output_filename date s2) := by
  refine ⟨fun date subnet => rfl, ?_⟩
  intro date s1 s2 h1 h2 hne heq
  apply hne
  obtain ⟨⟨net1, p1⟩, hp1⟩ := Option.isSome_iff_exists.mp h1
  obtain ⟨⟨net2, p2⟩, hp2⟩ := Option.isSome_iff_exists.mp h2
  have hd := congrArg String.data heq
  simp only [output_filename, String.data_append, List.append_assoc] at hd
  have hd2 := List.append_cancel_left hd
  have hd3 := List.append_cancel_left hd2
  have hd4 := List.append_cancel_right hd3
  have := map_slash_inj s1.data s2.data (accepted_no_underscore hp1)
    (accepted_no_underscore hp2) hd4
  cases s1
  cases s2
  exact congrArg String.mk this

/-- Witness for C6: two distinct parsed subnets on one date get distinct
file names. -/
theorem C6_filename_deterministic_distinct_witness :
    (pyIPv4Network "10.0.0.0/24").isSome ∧ (pyIPv4Network "10.0.0.0/30").isSome ∧
    output_filename "01JAN2026" "10.0.0.0/24" ≠
      output_filename "01JAN2026" "10.0.0.0/30" :=
  ⟨by decide, by decide,
    C6_filename_deterministic_distinct.2 "01JAN2026" "10.0.0.0/24" "10.0.0.0/30"
      (by decide) (by decide) (by decide)⟩

/-! ### Lookup in the merged results dict of a multi-subnet run -/

theorem dictUpdate_cons (d : List (String × Bool)) (q : String × Bool)
    (t : List (String × Bool)) :
    dictUpdate d (q :: t) = dictUpdate (dictInsert d q.1 q.2) t := rfl

theorem dictUpdate_lookup_not_mem :
    ∀ (new d : List (String × Bool)) (k : String), k ∉ new.map Prod.fst →
      dictLookup (dictUpdate d new) k = dictLookup d k := by
  intro new
  induction new with
  | nil => intro d k _; rfl
  | cons q t ih =>
    intro d k h
    simp only [List.map_cons, List.mem_cons] at h
    push_neg at h
    rw [dictUpdate_cons, ih _ k h.2, dictLookup_insert_ne _ _ _ _ h.1]

theorem dictUpdate_lookup_mapfn (g : String → Bool) :
    ∀ (l : List String) (d : List (String × Bool)) (k : String),
      k ∈ l → l.Nodup →
      dictLookup (dictUpdate d (l.map fun x => (x, g x))) k = some (g k) := by
  intro l
  induction l with
  | nil => intro d k hk _; simp at hk
  | cons x t ih =>
    intro d k hk hnd
    simp only [List.map_cons]
    rw [dictUpdate_cons]
    rcases List.mem_cons.mp hk with rfl | hkt
    · have hnx : k ∉ t := (List.nodup_cons.mp hnd).1
      rw [dictUpdate_lookup_not_mem _ _ k (by
        simp only [List.map_map]
        have : (Prod.fst ∘ fun x => (x, g x)) = id := rfl
        rw [this, List.map_id]
        exact hnx)]
      exact dictLookup_insert_self d k (g k)
    · exact ih _ k hkt (List.nodup_cons.mp hnd).2

theorem dictInsert_keys_mem :
    ∀ (d : List (String × Bool)) (k : String) (v : Bool) (a : String),
      a ∈ (dictInsert d k v).map Prod.fst ↔ a ∈ d.map Prod.fst ∨ a = k := by
  intro d
  induction d with
  | nil => intro k v a; simp [dictInsert]
  | cons q t ih =>
    intro k v a
    obtain ⟨b, w⟩ := q
    by_cases hb : b = k
    · subst hb
      simp [dictInsert]
      tauto
    · simp only [dictInsert, if_neg hb, List.map_cons, List.mem_cons, ih]
      tauto

theorem keys_foldl_insert :
    ∀ (l : List (String × Except Unit Bool)) (acc : List (String × Bool)) (a : String),
      a ∈ (l.foldl (fun d q => dictInsert d q.1 (resolveProbe q.2)) acc).map
        Prod.fst →
      a ∈ acc.map Prod.fst ∨ a ∈ l.map Prod.fst := by
  intro l
  induction l with
  | nil => intro acc a h; exact Or.inl h
  | cons q t ih =>
    intro acc a h
    simp only [List.foldl_cons] at h
    rcases ih _ a h with hacc | ht
    · rcases (dictInsert_keys_mem acc q.1 (resolveProbe q.2) a).mp hacc with h1 | h2
      · exact Or.inl h1
      · exact Or.inr (by simp [h2])
    · exact Or.inr (by simp [ht])

theorem scan_results_keys_sub (ips : List String)
    (probe : String → Except Unit Bool) (a : String)
    (h : a ∈ (ping_subnet_with_threadpool ips probe).results.map Prod.fst) :
    a ∈ ips := by
  unfold ping_subnet_with_threadpool at h
  rw [scan_results_foldl] at h
  rcases keys_foldl_insert (ips.map fun ip => (ip, probe ip)) [] a h with hacc | hl
  · simp at hacc
  · simpa using hl

theorem runAllGo_cons (env : Nat → String → Except Unit Bool) (j : Nat)
    (acc : List (String × Bool)) (s : String) (ips : List String)
    (rest : List (String × List String)) :
    runAllGo env j acc ((s, ips) :: rest) =
      runAllGo env (j + 1)
        (dictUpdate acc (ping_subnet_with_threadpool ips (env j)).results) rest := rfl

theorem runAllGo_lookup_not_mem (env : Nat → String → Except Unit Bool) :
    ∀ (rest : List (String × List String)) (j : Nat)
      (acc : List (String × Bool)) (ip : String),
      (∀ q ∈ rest, ip ∉ q.2) →
      dictLookup (runAllGo env j acc rest) ip = dictLookup acc ip := by
  intro rest
  induction rest with
  | nil => intro j acc ip _; rfl
  | cons q t ih =>
    intro j acc ip h
    obtain ⟨s0, ips0⟩ := q
    rw [runAllGo_cons, ih _ _ ip (fun q hq => h q (by simp [hq]))]
    apply dictUpdate_lookup_not_mem
    intro hmem
    exact h (s0, ips0) (by simp) (scan_results_keys_sub ips0 (env j) ip hmem)

theorem runAllGo_lookup (env : Nat → String → Except Unit Bool) :
    ∀ (sm : List (String × List String)) (j : Nat) (acc : List (String × Bool))
      (i : Nat) (subnet : String) (ips : List String) (ip : String),
      sm[i]? = some (subnet, ips) → ip ∈ ips →
      sm.Pairwise (fun a b => ∀ x ∈ a.2, x ∉ b.2) →
      (∀ q ∈ sm, q.2.Nodup) →
      dictLookup (runAllGo env j acc sm) ip =
        some (resolveProbe (env (j + i) ip)) := by
  intro sm
  induction sm with
  | nil => intro j acc i subnet ips ip hi; simp at hi
  | cons q rest ih =>
    intro j acc i subnet ips ip hi hip hdisj hnd
    obtain ⟨s0, ips0⟩ := q
    cases i with
    | zero =>
      simp only [List.getElem?_cons_zero, Option.some.injEq, Prod.mk.injEq] at hi
      obtain ⟨h1, h2⟩ := hi
      have hip0 : ip ∈ ips0 := by rw [h2]; exact hip
      rw [runAllGo_cons]
      have hout : ∀ b ∈ rest, ip ∉ b.2 := fun b hb =>
        (List.pairwise_cons.mp hdisj).1 b hb ip hip0
      rw [runAllGo_lookup_not_mem env rest _ _ ip hout]
      have hnd0 : ips0.Nodup := hnd (s0, ips0) (by simp)
      rw [scan_results_eq ips0 (env j) hnd0]
      rw [dictUpdate_lookup_mapfn (fun x => resolveProbe (env j x)) ips0 acc ip
        hip0 hnd0]
      simp
    | succ i2 =>
      simp only [List.getElem?_cons_succ] at hi
      rw [runAllGo_cons]
      have := ih (j + 1)
        (dictUpdate acc (ping_subnet_with_threadpool ips0 (env j)).results)
        i2 subnet ips ip hi hip
        (List.pairwise_cons.mp hdisj).2 (fun q hq => hnd q (by simp [hq]))
      rw [this]
      have e : j + 1 + i2 = j + (i2 + 1) := by omega
      rw [e]

end SubnetScraper

namespace SubnetScraper

/-- C8 as stated is false on the code: the per-subnet records are written
from the single merged results dict, so when two subnets of one run
overlap, a later subnet's probe outcome overwrites the shared address and
changes the EARLIER subnet's persisted record.  Concretely, for the run
scanning 192.168.1.0/31 (addresses .0, .1) and then 192.168.1.0/30
(addresses .1, .2): two probe environments that agree everywhere on the
first subnet's own scan — both make every probe of scan 0 succeed — but
differ on the second scan's probe of the shared address 192.168.1.1
produce different persisted records for the FIRST subnet. -/
theorem C8_counterexample :
    (∀ ip : String,
      (fun (_ : Nat) (_ : String) => (Except.ok true : Except Unit Bool)) 0 ip =
      (fun (i : Nat) (ip : String) =>
        (Except.ok (!(i == 1 && ip == "192.168.1.1")) : Except Unit Bool)) 0 ip) ∧
    (expandSubnet "192.168.1.0/31" = some ["192.168.1.0", "192.168.1.1"] ∧
     expandSubnet "192.168.1.0/30" = some ["192.168.1.1", "192.168.1.2"]) ∧
    (mainRun "01JAN2026"
        [("192.168.1.0/31", ["192.168.1.0", "192.168.1.1"]),
         ("192.168.1.0/30", ["192.168.1.1", "192.168.1.2"])]
        (fun _ _ => Except.ok true))[0]? ≠
      (mainRun "01JAN2026"
        [("192.168.1.0/31", ["192.168.1.0", "192.168.1.1"]),
         ("192.168.1.0/30", ["192.168.1.1", "192.168.1.2"])]
        (fun i ip => Except.ok (!(i == 1 && ip == "192.168.1.1"))))[0]? :=
  ⟨fun _ => rfl, ⟨by decide, by decide⟩, by decide⟩

/-- C8 amended: when the scanned subnets' AddressSets are pairwise
disjoint (and each duplicate-free, as expansion guarantees), the persisted
record of each subnet depends only on its own scan's probe outcomes: the
`i`-th record is exactly the header plus one row per address of subnet
`i`, each valued by the single probe invocation `env i ip` made for that
address within that subnet's scan. -/
theorem C8_amended_independence (sm : List (String × List String))
    (env : Nat → String → Except Unit Bool) (date : String)
    (hdisj : sm.Pairwise fun a b => ∀ ip ∈ a.2, ip ∉ b.2)
    (hnd : ∀ q ∈ sm, q.2.Nodup)
    (i : Nat) (subnet : String) (ips : List String)
    (hi : sm[i]? = some (subnet, ips)) :
    (mainRun date sm env)[i]? =
      some (output_filename date subnet,
        ["IP Address", "Reachable"] :: ips.map fun ip =>
          [ip, bool_str (resolveProbe (env i ip))]) := by
  unfold mainRun output
  rw [List.getElem?_map, hi, Option.map_some']
  have hrows : (outputRecord (runAll sm env) ips) =
      ["IP Address", "Reachable"] :: ips.map fun ip =>
        [ip, bool_str (resolveProbe (env i ip))] := by
    unfold outputRecord
    congr 1
    apply List.map_congr_left
    intro ip hip
    have hl := runAllGo_lookup env sm 0 [] i subnet ips ip hi hip hdisj hnd
    unfold runAll
    rw [dictGetD, hl]
    norm_num
  rw [hrows]

/-- Witness for the amended C8 on two concrete disjoint subnets. -/
theorem C8_amended_independence_witness :
    ([("192.168.1.0/31", ["192.168.1.0", "192.168.1.1"]),
      ("192.168.2.0/31", ["192.168.2.0", "192.168.2.1"])] :
        List (String × List String)).Pairwise (fun a b => ∀ ip ∈ a.2, ip ∉ b.2) ∧
    (mainRun "01JAN2026"
        [("192.168.1.0/31", ["192.168.1.0", "192.168.1.1"]),
         ("192.168.2.0/31", ["192.168.2.0", "192.168.2.1"])]
        (fun i ip => Except.ok (i == 0 && ip == "192.168.1.1")))[0]? =
      some ("01JAN2026_ping results_192.168.1.0_31.csv",
        [["IP Address", "Reachable"], ["192.168.1.0", "false"],
         ["192.168.1.1", "true"]]) := by
  constructor
  · decide
  · rw [C8_amended_independence _ _ _ (by decide) (by decide) 0 "192.168.1.0/31"
      ["192.168.1.0", "192.168.1.1"] (by decide)]
    decide

/-! ### The source octet parser agrees with the spec's octet description -/

theorem digitsVal_foldl_init :
    ∀ (l : List Char) (a : Nat),
      l.foldl (fun acc c => 10 * acc + (c.toNat - 48)) a =
        a * 10 ^ l.length + digitsVal l := by
  intro l
  induction l with
  | nil => intro a; simp [digitsVal]
  | cons c t ih =>
    intro a
    simp only [List.foldl_cons, List.length_cons, digitsVal]
    rw [ih (10 * a + (c.toNat - 48)), ih (0 * 10 + (c.toNat - 48))]
    ring

theorem digitsVal_cons (c : Char) (rest : List Char) :
    digitsVal (c :: rest) =
      (c.toNat - 48) * 10 ^ rest.length + digitsVal rest := by
  have h := digitsVal_foldl_init rest (10 * 0 + (c.toNat - 48))
  unfold digitsVal at h ⊢
  simp only [List.foldl_cons]
  rw [h]
  ring

theorem isDig_bounds (c : Char) (h : isDig c = true) :
    48 ≤ c.toNat ∧ c.toNat ≤ 57 := by
  unfold isDig at h
  rw [Bool.and_eq_true] at h
  obtain ⟨h1, h2⟩ := h
  rw [decide_eq_true_eq] at h1 h2
  rw [Char.le_def] at h1 h2
  exact ⟨h1, h2⟩

/-- A nonempty all-digit numeral without a leading zero and with more than
3 digits has value at least 1000. -/
theorem digitsVal_large {o : List Char} (hd : o.all isDig = true)
    (hz : o = ['0'] ∨ o.head? ≠ some '0') (hl : o.length > 3) :
    255 < digitsVal o := by
  cases o with
  | nil => simp at hl
  | cons c rest =>
    have hc : isDig c = true := by
      rw [List.all_eq_true] at hd
      exact hd c (by simp)
    have hcz : c ≠ '0' := by
      rcases hz with he | hh
      · exfalso
        rw [he] at hl
        simp at hl
      · intro hcc
        rw [hcc] at hh
        simp at hh
    have hne : c.toNat ≠ 48 := by
      intro h48
      apply hcz
      have hc48 : c = Char.ofNat 48 := by
        have hoft := Char.ofNat_toNat c
        rw [h48] at hoft
        exact hoft.symm
      rw [hc48]
    obtain ⟨hlo, _⟩ := isDig_bounds c hc
    have hone : 1 ≤ c.toNat - 48 := by omega
    have hlen : 3 ≤ rest.length := by
      simp only [List.length_cons] at hl
      omega
    have hpow : (1000 : Nat) ≤ 10 ^ rest.length := by
      calc (1000 : Nat) = 10 ^ 3 := by norm_num
      _ ≤ 10 ^ rest.length := Nat.pow_le_pow_right (by norm_num) hlen
    have := digitsVal_cons c rest
    have hmul : 10 ^ rest.length ≤ (c.toNat - 48) * 10 ^ rest.length :=
      Nat.le_mul_of_pos_left _ (by omega)
    omega

/-- The CPython octet parser and the spec's octet description agree on
every input: the length-at-most-3 check of the source is implied by the
spec's no-leading-zero and at-most-255 conditions. -/
theorem parseOctet_eq_specOctet (o : List Char) : parseOctet o = specOctet o := by
  unfold parseOctet specOctet
  split_ifs with h1 h2 h3 h4 h5 h6 h7 h8 h9 h10 h11 <;>
    first
      | rfl
      | tauto
      | (exfalso
         have hlarge : 255 < digitsVal o :=
           digitsVal_large (by assumption) (by tauto) (by assumption)
         omega)
      | (exfalso
         obtain ⟨-, -, -, hv⟩ := h9
         omega)
      | (exfalso
         apply h10
         exact ⟨h1, h3, by tauto, by omega⟩)

theorem isDig_ne_dot (c : Char) (h : isDig c = true) : c ≠ '.' := by
  intro hc
  subst hc
  exact absurd h (by decide)

theorem splitOnChar_no_sep (sep : Char) :
    ∀ (l : List Char), (∀ c ∈ l, c ≠ sep) → splitOnChar sep l = [l] := by
  intro l
  induction l with
  | nil => intro _; rfl
  | cons c cs ih =>
    intro h
    unfold splitOnChar
    rw [ih fun x hx => h x (by simp [hx])]
    simp [h c (by simp)]

/-- For a nonempty all-digit mask part, `_make_netmask` succeeds exactly
when the decimal value is at most 32: the dotted netmask/hostmask fallback
cannot fire because a digit string has no dot and is not four octets. -/
theorem makeNetmask_digits {m : List Char} (hme : ¬ m.isEmpty = true)
    (hmd : m.all isDig = true) :
    makeNetmask m =
      if digitsVal m ≤ 32 then some (digitsVal m) else none := by
  have hpfps : prefixFromPrefixString m =
      if digitsVal m ≤ 32 then some (digitsVal m) else none := by
    unfold prefixFromPrefixString
    rw [if_neg hme, if_neg (by simp [hmd])]
  have hodots : ∀ c ∈ m, c ≠ '.' := by
    intro c hc
    rw [List.all_eq_true] at hmd
    exact isDig_ne_dot c (hmd c hc)
  have hips : prefixFromIpString m = none := by
    unfold prefixFromIpString ipIntFromString
    rw [if_neg hme, splitOnChar_no_sep '.' m hodots]
  unfold makeNetmask
  rw [hpfps]
  by_cases hle : digitsVal m ≤ 32
  · rw [if_pos hle]
  · rw [if_neg hle, hips]

/-- The spec-side parse of a slash-split string agrees with the source's
address parser composed with the spec's prefix conditions (using the
octet-level agreement `parseOctet_eq_specOctet`). -/
theorem specParseCIDR_eq_ipInt (a m : List Char) (s : String)
    (hsplit : splitOnChar '/' s.data = [a, m]) :
    specParseCIDR s =
      match ipIntFromString a with
      | some ip =>
        if ¬ m.isEmpty ∧ m.all isDig ∧ digitsVal m ≤ 32
        then some (ip, digitsVal m) else none
      | none => none := by
  unfold specParseCIDR ipIntFromString
  simp only [hsplit]
  by_cases hae : a.isEmpty
  · have ha : a = [] := by
      cases a with
      | nil => rfl
      | cons x t => simp at hae
    subst ha
    simp [splitOnChar]
  · rw [if_neg hae]
    rcases hsa : splitOnChar '.' a with _ | ⟨o1, _ | ⟨o2, _ | ⟨o3, _ | ⟨o4, _ | ⟨o5, rest⟩⟩⟩⟩⟩
    · simp
    · simp
    · simp
    · simp
    · simp only [← parseOctet_eq_specOctet]
      cases hp1 : parseOctet o1 <;> cases hp2 : parseOctet o2 <;>
        cases hp3 : parseOctet o3 <;> cases hp4 : parseOctet o4 <;> simp
    · simp

end SubnetScraper

namespace SubnetScraper

/-- C7 is refuted by strict parsing: `192.168.1.1/24` is a syntactically
valid IPv4 CIDR (well-formed octets, prefix in range, no stray
characters), yet `ipaddress.IPv4Network` raises `ValueError: ... has host
bits set`, so `parse_args` exits with an error — expansion does not fail
*exactly* on syntactically invalid strings. -/
theorem C7_counterexample :
    specValidCIDR "192.168.1.1/24" = true ∧
    pyIPv4Network "192.168.1.1/24" = none := by
  constructor <;> decide

/-- C7 amended: for every input string whose prefix part is in numeric
CIDR form (exactly one slash, nonempty decimal suffix — excluding the
bare-address and dotted netmask/hostmask forms the Python constructor
additionally accepts), subnet expansion fails with `InvalidSubnetError`
exactly when the string is not a syntactically valid IPv4 CIDR (malformed
octets, prefix out of range, stray characters) **or** the address has host
bits set below the prefix (strict network parsing); when it succeeds it
yields precisely the spec-described network.  The expansion is a pure
function of the string (no side effects), which the embedding renders by
construction. -/
theorem C7_amended_strict_validity (s : String)
    (hq : numericPrefixForm s = true) :
    pyIPv4Network s =
      if specValidCIDR s = true ∧ specHostBitsClear s = true
      then specParseCIDR s else none := by
  unfold numericPrefixForm at hq
  rcases hsplit : splitOnChar '/' s.data with _ | ⟨a, _ | ⟨m, _ | ⟨x, xs⟩⟩⟩
  · rw [hsplit] at hq; simp at hq
  · rw [hsplit] at hq; simp at hq
  · rw [hsplit] at hq
    rw [decide_eq_true_eq] at hq
    obtain ⟨hme, hmd⟩ := hq
    have hme2 : ¬ m.isEmpty = true := by simpa using hme
    have hmd2 : m.all isDig = true := hmd
    have hspec := specParseCIDR_eq_ipInt a m s hsplit
    have hmk := makeNetmask_digits hme2 hmd2
    unfold specValidCIDR specHostBitsClear
    rw [hspec]
    unfold pyIPv4Network
    simp only [hsplit]
    cases hip : ipIntFromString a with
    | none => simp
    | some ip =>
      rw [hmk]
      by_cases hle : digitsVal m ≤ 32
      · have hiff := land_netmask_eq_iff ip (digitsVal m)
          (ipIntFromString_lt hip) hle
        by_cases hbits : ip % 2 ^ (32 - digitsVal m) = 0
        · simp [hle, hme, hmd, hbits, hiff.mpr hbits]
        · simp [hle, hme, hmd, hbits, hiff]
      · simp [hle]
  · rw [hsplit] at hq; simp at hq

/-- Witness for the amended C7 at a concrete valid strict CIDR. -/
theorem C7_amended_strict_validity_witness :
    numericPrefixForm "192.168.1.0/24" = true ∧
    pyIPv4Network "192.168.1.0/24" =
      (if specValidCIDR "192.168.1.0/24" = true ∧
          specHostBitsClear "192.168.1.0/24" = true
       then specParseCIDR "192.168.1.0/24" else none) :=
  ⟨by decide, C7_amended_strict_validity "192.168.1.0/24" (by decide)⟩

end SubnetScraper


